import Mathlib

/-!
Verification of the `foxes` chunked wake-calculation engine.

Shallow embedding of the parts of the code that the specification's claims
are about:

* `foxes/core/engine.py` — `Engine.loop_dims`, `Engine.calc_chunk_sizes`,
  `Engine.get_chunk_input_data`, `Engine.combine_results`,
  `Engine.initialize` / `Engine.finalize` and the global-engine slot,
  `Engine.new`;
* `foxes/core/wake_model.py` — `WakeModel.new`;
* `foxes/algorithms/iterative/models/farm_wakes_calc.py` —
  `FarmWakesCalculation.calculate` (the contribute/evaluate loop);
* `foxes/models/wake_models/top_hat.py` — `TopHatWakeModel.calc_wakes_x_r`.

Machine arithmetic: the Python code computes chunk counts with
`int(a/b)` on nonnegative integers, which for all realistic sizes
(below 2^53, where float true-division is exact enough to truncate
correctly) equals floor division; it is embedded as `Nat` division.
-/

namespace Foxes

/-- The loop dimension tokens `FC.STATE` and `FC.TARGET` from
`foxes.constants`; only their distinctness matters here. -/
inductive Dim where
  | STATE : Dim
  | TARGET : Dim
deriving DecidableEq, Repr

/-- `Engine.loop_dims` (foxes/core/engine.py lines 106-124), a function of
the engine attributes `chunk_size_states` and `chunk_size_points`
(`none` embeds Python `None`).  The first guard of the source reads
`if self.chunk_size_states is None and self.chunk_size_states is None`,
testing `chunk_size_states` twice. -/
def loop_dims (chunk_size_states chunk_size_points : Option Nat) : List Dim :=
  if chunk_size_states = none ∧ chunk_size_states = none then []
  else if chunk_size_states = none then [Dim.TARGET]
  else if chunk_size_points = none then [Dim.STATE]
  else [Dim.STATE, Dim.TARGET]

/-- `chunk_sizes[-extra:] += 1` on a numpy array, applied only when
`extra > 0` (foxes/core/engine.py lines 201-202 and 214-215). -/
def bumpLast (sizes : List Nat) (extra : Nat) : List Nat :=
  if extra > 0 then
    sizes.take (sizes.length - extra) ++ (sizes.drop (sizes.length - extra)).map (· + 1)
  else sizes

/-- Engine configuration attributes used by `Engine.calc_chunk_sizes`:
`n_procs` (set by the concrete engine classes, e.g. `DaskEngine.__init__`),
the ambient `os.cpu_count()`, and the chunk-size attributes of
`Engine.__init__`. -/
structure EngineCfg where
  n_procs : Option Nat
  cpu_count : Nat
  chunk_size_states : Option Nat
  chunk_size_points : Option Nat
deriving DecidableEq, Repr

/-- States part of `Engine.calc_chunk_sizes`
(foxes/core/engine.py lines 189-203).  `none` embeds a Python
`ZeroDivisionError` (raised by `int(a/b)` when a divisor is zero). -/
def calc_chunk_sizes_states (cfg : EngineCfg) (n_states : Nat) : Option (List Nat) :=
  let n_procs := match cfg.n_procs with
    | none => cfg.cpu_count
    | some p => p
  match cfg.chunk_size_states with
  | none =>
    if n_procs = 0 then none else
    let chunk_size_states := max (n_states / n_procs) 1
    let n_chunks_states := n_states / chunk_size_states
    if n_chunks_states = 0 then none else
    let chunk_size_states := n_states / n_chunks_states
    some (bumpLast (List.replicate n_chunks_states chunk_size_states)
      (n_states - n_chunks_states * chunk_size_states))
  | some c =>
    let chunk_size_states := min n_states c
    if chunk_size_states = 0 then none else
    let n_chunks_states := n_states / chunk_size_states
    if n_chunks_states = 0 then none else
    let chunk_size_states := n_states / n_chunks_states
    some (bumpLast (List.replicate n_chunks_states chunk_size_states)
      (n_states - n_chunks_states * chunk_size_states))

/-- Targets part of `Engine.calc_chunk_sizes`
(foxes/core/engine.py lines 205-216); for `n_targets <= 1` the
initialization `chunk_sizes_targets = [n_targets]` is returned.
`none` embeds a Python exception: `TypeError` from
`min(n_targets, None)` when `chunk_size_points` is unset although
`n_targets > 1`, or `ZeroDivisionError` on a zero divisor. -/
def calc_chunk_sizes_targets (cfg : EngineCfg) (n_targets : Nat) : Option (List Nat) :=
  if n_targets > 1 then
    match cfg.chunk_size_points with
    | none => none
    | some c =>
      let chunk_size_targets := min n_targets c
      if chunk_size_targets = 0 then none else
      let n_chunks_targets := max (n_targets / chunk_size_targets) 1
      let chunk_size_targets := n_targets / n_chunks_targets
      some (bumpLast (List.replicate n_chunks_targets chunk_size_targets)
        (n_targets - n_chunks_targets * chunk_size_targets))
  else some [n_targets]

/-- `Engine.calc_chunk_sizes` (foxes/core/engine.py lines 168-218):
returns `(n_procs, chunk_sizes_states, chunk_sizes_targets)`;
`none` embeds a Python exception. -/
def calc_chunk_sizes (cfg : EngineCfg) (n_states : Nat) (n_targets : Nat := 1) :
    Option (Nat × List Nat × List Nat) :=
  let n_procs := match cfg.n_procs with
    | none => cfg.cpu_count
    | some p => p
  match calc_chunk_sizes_states cfg n_states, calc_chunk_sizes_targets cfg n_targets with
  | some s, some t => some (n_procs, s, t)
  | _, _ => none

/-- Effective process count: `cpu_count() if self.n_procs is None else self.n_procs`
(foxes/core/engine.py line 192). -/
def n_procs_eff (cfg : EngineCfg) : Nat :=
  match cfg.n_procs with
  | none => cfg.cpu_count
  | some p => p

lemma bumpLast_replicate (k c e : Nat) (he : e ≤ k) :
    bumpLast (List.replicate k c) e =
      List.replicate (k - e) c ++ List.replicate e (c + 1) := by
  unfold bumpLast
  rcases Nat.eq_zero_or_pos e with h0 | hpos
  · subst h0; simp
  · rw [if_pos hpos, List.length_replicate, List.take_replicate, List.drop_replicate,
      List.map_replicate, min_eq_left (Nat.sub_le k e)]
    have h2 : k - (k - e) = e := by omega
    rw [h2]

/-- The chunk-size array built from `k` chunks for extent `n`
(`np.full` followed by the remainder bump) partitions `n` into parts
of size `n/k` or `n/k + 1`. -/
lemma chunkArray_spec (n k : Nat) (hk : 0 < k) (hkn : k ≤ n) :
    (bumpLast (List.replicate k (n / k)) (n - k * (n / k))).sum = n ∧
    (∀ x ∈ bumpLast (List.replicate k (n / k)) (n - k * (n / k)), 1 ≤ x) ∧
    (∀ a ∈ bumpLast (List.replicate k (n / k)) (n - k * (n / k)),
      ∀ b ∈ bumpLast (List.replicate k (n / k)) (n - k * (n / k)), a ≤ b + 1) := by
  have hmod : n - k * (n / k) = n % k := by
    have := Nat.mod_add_div n k; omega
  have hek : n % k ≤ k := le_of_lt (Nat.mod_lt _ hk)
  have hc1 : 1 ≤ n / k := (Nat.one_le_div_iff hk).mpr hkn
  rw [hmod, bumpLast_replicate _ _ _ hek]
  have hmem : ∀ x ∈ List.replicate (k - n % k) (n / k) ++
      List.replicate (n % k) (n / k + 1), x = n / k ∨ x = n / k + 1 := by
    intro x hx
    rcases List.mem_append.mp hx with h | h
    · exact Or.inl (List.eq_of_mem_replicate h)
    · exact Or.inr (List.eq_of_mem_replicate h)
  refine ⟨?_, ?_, ?_⟩
  · have hsum : (List.replicate (k - n % k) (n / k) ++
        List.replicate (n % k) (n / k + 1)).sum
        = (k - n % k) * (n / k) + (n % k) * (n / k + 1) := by
      simp [List.sum_append, List.sum_replicate, smul_eq_mul]
    rw [hsum]
    have h1 : (k - n % k) * (n / k) + (n % k) * (n / k + 1)
        = ((k - n % k) + n % k) * (n / k) + n % k := by ring
    rw [h1]
    have h2 : (k - n % k) + n % k = k := by omega
    rw [h2]
    have := Nat.div_add_mod n k
    omega
  · intro x hx
    rcases hmem x hx with h | h <;> omega
  · intro a ha b hb
    rcases hmem a ha with h | h <;> rcases hmem b hb with h' | h' <;> omega

lemma calc_chunk_sizes_states_spec (cfg : EngineCfg) (n_states : Nat)
    (hn : 1 ≤ n_states) (hproc : 0 < n_procs_eff cfg)
    (hcss : ∀ c, cfg.chunk_size_states = some c → 0 < c) :
    ∃ ss, calc_chunk_sizes_states cfg n_states = some ss ∧
      ss.sum = n_states ∧ (∀ x ∈ ss, 1 ≤ x) ∧
      (∀ a ∈ ss, ∀ b ∈ ss, a ≤ b + 1) := by
  rcases hc : cfg.chunk_size_states with _ | c
  · have hnp : ¬ (n_procs_eff cfg = 0) := by omega
    have hcs1 : 1 ≤ max (n_states / n_procs_eff cfg) 1 := le_max_right _ _
    have hcsn : max (n_states / n_procs_eff cfg) 1 ≤ n_states :=
      max_le (Nat.div_le_self _ _) hn
    have hk1 : 1 ≤ n_states / max (n_states / n_procs_eff cfg) 1 :=
      (Nat.one_le_div_iff hcs1).mpr hcsn
    have hkn : n_states / max (n_states / n_procs_eff cfg) 1 ≤ n_states :=
      Nat.div_le_self _ _
    simp only [calc_chunk_sizes_states, hc, n_procs_eff] at hnp hk1 hkn ⊢
    rw [if_neg hnp, if_neg (by omega)]
    exact ⟨_, rfl, chunkArray_spec n_states _ hk1 hkn⟩
  · have hc0 : 0 < c := hcss c hc
    have hcs1 : 1 ≤ min n_states c := le_min hn hc0
    have hcsn : min n_states c ≤ n_states := min_le_left _ _
    have hk1 : 1 ≤ n_states / min n_states c := (Nat.one_le_div_iff hcs1).mpr hcsn
    have hkn : n_states / min n_states c ≤ n_states := Nat.div_le_self _ _
    simp only [calc_chunk_sizes_states, hc] at hk1 hkn ⊢
    rw [if_neg (by omega), if_neg (by omega)]
    exact ⟨_, rfl, chunkArray_spec n_states _ hk1 hkn⟩

lemma calc_chunk_sizes_targets_spec (cfg : EngineCfg) (n_targets : Nat)
    (hn : 1 ≤ n_targets)
    (hcsp : 1 < n_targets → ∃ c, cfg.chunk_size_points = some c ∧ 0 < c) :
    ∃ ts, calc_chunk_sizes_targets cfg n_targets = some ts ∧
      ts.sum = n_targets ∧ (∀ x ∈ ts, 1 ≤ x) ∧
      (∀ a ∈ ts, ∀ b ∈ ts, a ≤ b + 1) := by
  rcases Nat.lt_or_ge 1 n_targets with h1 | h1
  · obtain ⟨c, hc, hc0⟩ := hcsp h1
    have hcs1 : 1 ≤ min n_targets c := le_min hn hc0
    have hk1 : 1 ≤ max (n_targets / min n_targets c) 1 := le_max_right _ _
    have hkn : max (n_targets / min n_targets c) 1 ≤ n_targets :=
      max_le (Nat.div_le_self _ _) hn
    simp only [calc_chunk_sizes_targets, if_pos h1, hc] at hk1 hkn ⊢
    rw [if_neg (by omega)]
    exact ⟨_, rfl, chunkArray_spec n_targets _ hk1 hkn⟩
  · have h2 : n_targets = 1 := by omega
    subst h2
    refine ⟨[1], by simp [calc_chunk_sizes_targets], by norm_num, ?_, ?_⟩ <;>
      intro a ha <;> simp_all

/-- C2 counterexample input: `n_targets = 0` (as passed by
`LocalClusterEngine.run_calculation` when `point_data is None`) yields the
target chunk-size array `[0]`, whose entry is not at least 1. -/
theorem calc_chunk_sizes_zero_target_counterexample :
    calc_chunk_sizes ⟨none, 4, none, some 100⟩ 1 0 = some (4, [1], [0]) ∧
      ¬ (∀ x ∈ ([0] : List Nat), 1 ≤ x) := by decide

/-- C2 (amended): for `n_states ≥ 1`, `n_targets ≥ 1`, positive worker
count, positive configured chunk sizes (with `chunk_size_points` set
whenever `n_targets > 1`), `Engine.calc_chunk_sizes` succeeds and both
chunk-size arrays have every entry at least 1, sum exactly to their
extent, and any two entries along the same axis differ by at most 1. -/
theorem calc_chunk_sizes_complete (cfg : EngineCfg) (n_states n_targets : Nat)
    (hs : 1 ≤ n_states) (ht : 1 ≤ n_targets)
    (hproc : 0 < n_procs_eff cfg)
    (hcss : ∀ c, cfg.chunk_size_states = some c → 0 < c)
    (hcsp : 1 < n_targets → ∃ c, cfg.chunk_size_points = some c ∧ 0 < c) :
    ∃ ss ts, calc_chunk_sizes cfg n_states n_targets
        = some (n_procs_eff cfg, ss, ts) ∧
      ss.sum = n_states ∧ ts.sum = n_targets ∧
      (∀ x ∈ ss, 1 ≤ x) ∧ (∀ x ∈ ts, 1 ≤ x) ∧
      (∀ a ∈ ss, ∀ b ∈ ss, a ≤ b + 1) ∧
      (∀ a ∈ ts, ∀ b ∈ ts, a ≤ b + 1) := by
  obtain ⟨ss, hss, hsum, hpos, hdiff⟩ :=
    calc_chunk_sizes_states_spec cfg n_states hs hproc hcss
  obtain ⟨ts, hts, tsum, tpos, tdiff⟩ :=
    calc_chunk_sizes_targets_spec cfg n_targets ht hcsp
  refine ⟨ss, ts, ?_, hsum, tsum, hpos, tpos, hdiff, tdiff⟩
  unfold calc_chunk_sizes
  rw [hss, hts]
  rfl

/-- Witness for `calc_chunk_sizes_complete` at a concrete input. -/
theorem calc_chunk_sizes_complete_witness :
    ∃ ss ts, calc_chunk_sizes ⟨none, 4, some 3, some 4⟩ 10 11
        = some (n_procs_eff ⟨none, 4, some 3, some 4⟩, ss, ts) ∧
      ss.sum = 10 ∧ ts.sum = 11 ∧
      (∀ x ∈ ss, 1 ≤ x) ∧ (∀ x ∈ ts, 1 ≤ x) ∧
      (∀ a ∈ ss, ∀ b ∈ ss, a ≤ b + 1) ∧
      (∀ a ∈ ts, ∀ b ∈ ts, a ≤ b + 1) :=
  calc_chunk_sizes_complete ⟨none, 4, some 3, some 4⟩ 10 11
    (by norm_num) (by norm_num) (by norm_num [n_procs_eff])
    (by intro c hc; cases hc; norm_num)
    (by intro h; exact ⟨4, rfl, by norm_num⟩)

/-- C5 counterexample: with `chunk_size_states = None`, two runs that
differ only in the worker count (cpu_count 1 vs 2) produce different
state chunk-size arrays for the same `n_states = 4`. -/
theorem calc_chunk_sizes_procs_counterexample :
    calc_chunk_sizes ⟨none, 1, none, some 1⟩ 4 1 = some (1, [4], [1]) ∧
      calc_chunk_sizes ⟨none, 2, none, some 1⟩ 4 1 = some (2, [2, 2], [1]) ∧
      ([4] : List Nat) ≠ [2, 2] := by decide

/-- C5 (amended): when `chunk_size_states` is set (not `None`), the
chunk-size arrays returned by `Engine.calc_chunk_sizes` are identical
across runs whose worker counts (`n_procs` / cpu count) differ, for
identical `n_states`, `n_targets`, `chunk_size_states`,
`chunk_size_points`. -/
theorem calc_chunk_sizes_procs_independent (cfg₁ cfg₂ : EngineCfg)
    (n_states n_targets : Nat)
    (hc : ∃ c, cfg₁.chunk_size_states = some c)
    (hs : cfg₁.chunk_size_states = cfg₂.chunk_size_states)
    (hp : cfg₁.chunk_size_points = cfg₂.chunk_size_points) :
    (calc_chunk_sizes cfg₁ n_states n_targets).map Prod.snd
      = (calc_chunk_sizes cfg₂ n_states n_targets).map Prod.snd := by
  obtain ⟨c, hc⟩ := hc
  have h1 : calc_chunk_sizes_states cfg₁ n_states
      = calc_chunk_sizes_states cfg₂ n_states := by
    unfold calc_chunk_sizes_states
    rw [hc, ← hs, hc]
  have h2 : calc_chunk_sizes_targets cfg₁ n_targets
      = calc_chunk_sizes_targets cfg₂ n_targets := by
    unfold calc_chunk_sizes_targets
    rw [hp]
  unfold calc_chunk_sizes
  rw [h1, h2]
  cases calc_chunk_sizes_states cfg₂ n_states <;>
    cases calc_chunk_sizes_targets cfg₂ n_targets <;> rfl

/-- Witness for `calc_chunk_sizes_procs_independent`: worker counts 1 and
8, identical configured chunk sizes. -/
theorem calc_chunk_sizes_procs_independent_witness :
    (calc_chunk_sizes ⟨none, 1, some 3, some 4⟩ 10 11).map Prod.snd
      = (calc_chunk_sizes ⟨none, 8, some 3, some 4⟩ 10 11).map Prod.snd :=
  calc_chunk_sizes_procs_independent ⟨none, 1, some 3, some 4⟩
    ⟨none, 8, some 3, some 4⟩ 10 11 ⟨3, rfl⟩ rfl rfl

/-- C10: whenever `chunk_size_states` is `None`, `Engine.loop_dims`
returns the empty list regardless of `chunk_size_points`, and the branch
returning `[FC.TARGET]` is unreachable for every configuration, because
the first guard tests `chunk_size_states` twice. -/
theorem loop_dims_target_unreachable :
    (∀ csp, loop_dims none csp = []) ∧
      (∀ css csp, loop_dims css csp ≠ [Dim.TARGET]) := by
  constructor
  · intro csp; simp [loop_dims]
  · intro css csp
    cases css <;> cases csp <;> simp [loop_dims]

/-- Witness for `loop_dims_target_unreachable` at concrete configurations. -/
theorem loop_dims_target_unreachable_witness :
    loop_dims none (some 5) = [] ∧ loop_dims (some 3) (some 5) ≠ [Dim.TARGET] :=
  ⟨loop_dims_target_unreachable.1 (some 5),
    loop_dims_target_unreachable.2 (some 3) (some 5)⟩

/-! ## Engine lifecycle: the global engine slot

`__global_engine_data__` (foxes/core/engine.py lines 11-13) holds the
process-wide engine slot; `Engine.initialize` (lines 72-81),
`Engine.finalize` (lines 83-90) and `get_engine(error=False, default=False)`
(lines 484-520, which in that call form just returns the slot) operate on
it.  Engines are identified by ids; each carries its `__initialized` flag. -/

structure GlobalEngineState where
  engine : Option Nat
  initializedFlag : Nat → Bool

/-- `Engine.initialize` (foxes/core/engine.py lines 72-81).  Returns the
raised-exception flag (`True` embeds the `ValueError`, raised when the
slot already holds an engine while `self` is not initialized) together
with the resulting global state; on raise the state is unchanged. -/
def engineInitialize (e : Nat) (s : GlobalEngineState) : Bool × GlobalEngineState :=
  if s.initializedFlag e then (false, s)
  else if s.engine.isSome then (true, s)
  else (false, ⟨some e, fun x => if x = e then true else s.initializedFlag x⟩)

/-- `Engine.finalize` (foxes/core/engine.py lines 83-90). -/
def engineFinalize (e : Nat) (s : GlobalEngineState) : GlobalEngineState :=
  if s.initializedFlag e then
    ⟨none, fun x => if x = e then false else s.initializedFlag x⟩
  else s

/-- C7: while engine `e` is the active global engine, initializing a
different (not-yet-initialized) engine `f` raises and leaves the global
state unchanged; after `finalize` of `e` the slot is cleared, and a
subsequent `initialize` of `f` succeeds, making `f` the global engine. -/
theorem engine_singleton (s : GlobalEngineState) (e f : Nat)
    (hact : s.engine = some e) (hini : s.initializedFlag e = true)
    (hf : s.initializedFlag f = false) (hne : f ≠ e) :
    ((engineInitialize f s).1 = true ∧ (engineInitialize f s).2 = s) ∧
      (engineFinalize e s).engine = none ∧
      ((engineInitialize f (engineFinalize e s)).1 = false ∧
        (engineInitialize f (engineFinalize e s)).2.engine = some f) := by
  have h1 : engineInitialize f s = (true, s) := by
    unfold engineInitialize
    rw [hf, hact]
    simp
  have h2 : engineFinalize e s
      = ⟨none, fun x => if x = e then false else s.initializedFlag x⟩ := by
    unfold engineFinalize
    rw [hini]
    simp
  have h3 : ∀ x, (engineFinalize e s).initializedFlag x
      = if x = e then false else s.initializedFlag x := by
    intro x; rw [h2]
  have h4 : engineInitialize f (engineFinalize e s)
      = (false, ⟨some f, fun x => if x = f then true
          else (engineFinalize e s).initializedFlag x⟩) := by
    unfold engineInitialize
    rw [h3 f, if_neg hne, hf, h2]
    simp
  refine ⟨⟨by rw [h1], by rw [h1]⟩, by rw [h2], by rw [h4], by rw [h4]⟩

/-- Witness for `engine_singleton`: engine 0 active, engine 1 initializing. -/
theorem engine_singleton_witness :
    letI s : GlobalEngineState := ⟨some 0, fun x => decide (x = 0)⟩
    ((engineInitialize 1 s).1 = true ∧ (engineInitialize 1 s).2 = s) ∧
      (engineFinalize 0 s).engine = none ∧
      ((engineInitialize 1 (engineFinalize 0 s)).1 = false ∧
        (engineInitialize 1 (engineFinalize 0 s)).2.engine = some 1) :=
  engine_singleton ⟨some 0, fun x => decide (x = 0)⟩ 0 1 rfl rfl rfl
    (by norm_num)

/-! ## Chunk store lifecycle

The chunk store maps a chunk key `(chunki_states, chunki_points)` to the
stored per-chunk data; Python dicts are embedded as `ChunkKey → Option α`. -/

abbrev ChunkKey := Nat × Nat

/-- `dict.update`: entries of `frag` override entries of `store`. -/
def storeUpdate {α : Type} (store frag : ChunkKey → Option α) : ChunkKey → Option α :=
  fun k => match frag k with
    | some v => some v
    | none => store k

/-- `algo.reset_chunk_store()`: the store becomes empty. -/
def emptyStore {α : Type} : ChunkKey → Option α := fun _ => none

/-- Store effect of `Engine.get_chunk_input_data`
(foxes/core/engine.py lines 305-309): the algorithm's chunk store is
reset, then (iterative case) the entry under the chunk's own key is
popped from the engine-side `chunk_store` and installed.  Returns
(algorithm store handed to the chunk, remaining engine-side store). -/
def get_chunk_input_data_store {α : Type} (iterative : Bool)
    (chunk_store : ChunkKey → Option α) (key : ChunkKey) :
    (ChunkKey → Option α) × (ChunkKey → Option α) :=
  if iterative ∧ (chunk_store key).isSome then
    (fun k => if k = key then chunk_store key else none,
      fun k => if k = key then none else chunk_store k)
  else (emptyStore, chunk_store)

/-- The chunk keys `(chunki_states, chunki_points)` in the iteration
order of the nested combine loops (foxes/core/engine.py lines 366-379). -/
def allChunkKeys (n_chunks_states n_chunks_targets : Nat) : List ChunkKey :=
  (List.range n_chunks_states).flatMap
    (fun i => (List.range n_chunks_targets).map (fun j => (i, j)))

/-- The `algo._chunk_store.update(cstore)` calls performed for one output
variable inside `Engine.combine_results`, over all chunks in loop order. -/
def mergeChunkStores {α : Type} (store : ChunkKey → Option α)
    (cstores : ChunkKey → ChunkKey → Option α) (nS nT : Nat) : ChunkKey → Option α :=
  (allChunkKeys nS nT).foldl (fun acc c => storeUpdate acc (cstores c)) store

/-- Store effect of `Engine.combine_results`
(foxes/core/engine.py lines 360-394): for every output variable `v`
present in the chunk-(0,0) result, when `iterative` the chunk store
fragments of all chunks are merged into the algorithm's chunk store;
afterwards, `if not iterative or algo.final_iteration`, the chunk store
is reset. -/
def combineResultsStore {α : Type} (algoStore : ChunkKey → Option α)
    (out_vars res_vars00 : List String)
    (cstores : ChunkKey → ChunkKey → Option α) (nS nT : Nat)
    (iterative final_iteration : Bool) : ChunkKey → Option α :=
  let s1 := out_vars.foldl
    (fun acc v =>
      if v ∈ res_vars00 ∧ iterative then mergeChunkStores acc cstores nS nT
      else acc)
    algoStore
  if ¬ iterative ∨ final_iteration then emptyStore else s1

lemma mem_allChunkKeys (nS nT : Nat) (k : ChunkKey) :
    k ∈ allChunkKeys nS nT ↔ k.1 < nS ∧ k.2 < nT := by
  rcases k with ⟨i, j⟩
  simp [allChunkKeys, List.mem_flatMap, List.mem_range, List.mem_map]

/-- Folding singleton-keyed fragments over a key list: at key `k`, the
result is `k`'s own fragment when `k` occurs in the list, and the
original store entry otherwise. -/
lemma foldl_storeUpdate_singleton {α : Type} (frag : ChunkKey → α)
    (L : List ChunkKey) (store : ChunkKey → Option α)
    (cstores : ChunkKey → ChunkKey → Option α)
    (hsing : ∀ c ∈ L, ∀ k, cstores c k = if k = c then some (frag c) else none)
    (k : ChunkKey) :
    (L.foldl (fun acc c => storeUpdate acc (cstores c)) store) k
      = if k ∈ L then some (frag k) else store k := by
  induction L generalizing store with
  | nil => simp
  | cons c rest ih =>
    simp only [List.foldl_cons]
    rw [ih _ (fun c' hc' => hsing c' (List.mem_cons_of_mem _ hc'))]
    by_cases hk : k ∈ rest
    · simp [hk]
    · simp only [hk, if_false]
      rw [storeUpdate, hsing c (List.mem_cons_self _ _) k]
      by_cases hkc : k = c
      · subst hkc; simp
      · simp [hkc, List.mem_cons, hk]

lemma mergeChunkStores_apply {α : Type} (frag : ChunkKey → α)
    (store : ChunkKey → Option α) (cstores : ChunkKey → ChunkKey → Option α)
    (nS nT : Nat)
    (hsing : ∀ c, c.1 < nS → c.2 < nT →
      ∀ k, cstores c k = if k = c then some (frag c) else none)
    (k : ChunkKey) (hk1 : k.1 < nS) (hk2 : k.2 < nT) :
    mergeChunkStores store cstores nS nT k = some (frag k) := by
  unfold mergeChunkStores
  rw [foldl_storeUpdate_singleton frag _ store cstores
    (fun c hc => hsing c ((mem_allChunkKeys nS nT c).mp hc).1
      ((mem_allChunkKeys nS nT c).mp hc).2)]
  rw [if_pos ((mem_allChunkKeys nS nT k).mpr ⟨hk1, hk2⟩)]

lemma foldl_ifMerge_id {α : Type} (p : String → Prop) [DecidablePred p]
    (cstores : ChunkKey → ChunkKey → Option α) (nS nT : Nat)
    (vs : List String) (store : ChunkKey → Option α)
    (h : ∀ v ∈ vs, ¬ p v) :
    vs.foldl (fun acc v =>
      if p v then mergeChunkStores acc cstores nS nT else acc) store = store := by
  induction vs generalizing store with
  | nil => rfl
  | cons v rest ih =>
    simp only [List.foldl_cons, if_neg (h v (List.mem_cons_self _ _))]
    exact ih store (fun w hw => h w (List.mem_cons_of_mem _ hw))

lemma foldl_ifMerge_apply {α : Type} (frag : ChunkKey → α) (p : String → Prop)
    [DecidablePred p] (cstores : ChunkKey → ChunkKey → Option α) (nS nT : Nat)
    (hsing : ∀ c, c.1 < nS → c.2 < nT →
      ∀ k, cstores c k = if k = c then some (frag c) else none)
    (vs : List String) (store : ChunkKey → Option α)
    (k : ChunkKey) (hk1 : k.1 < nS) (hk2 : k.2 < nT)
    (h : ∃ v ∈ vs, p v) :
    (vs.foldl (fun acc v =>
      if p v then mergeChunkStores acc cstores nS nT else acc) store) k
      = some (frag k) := by
  induction vs generalizing store with
  | nil => simp at h
  | cons v rest ih =>
    simp only [List.foldl_cons]
    by_cases hv : p v
    · rw [if_pos hv]
      by_cases hrest : ∃ w ∈ rest, p w
      · exact ih _ hrest
      · push_neg at hrest
        rw [foldl_ifMerge_id p cstores nS nT rest _ hrest]
        exact mergeChunkStores_apply frag _ _ _ _ hsing k hk1 hk2
    · rw [if_neg hv]
      apply ih
      rcases h with ⟨w, hw, hpw⟩
      rcases List.mem_cons.mp hw with rfl | hmem
      · exact absurd hpw hv
      · exact ⟨w, hmem, hpw⟩

/-- C6: (a) after `combine_results` of a non-iterative calculation, or of
an iterative one at its final iteration, the algorithm's chunk store is
empty at every key; (b) when iterative and not final, each chunk's
returned store fragment (keyed by that chunk's own key) ends up in the
algorithm's chunk store under that key, provided at least one output
variable is present in the chunk results; (c) `get_chunk_input_data`
hands the algorithm exactly the engine-side entry with the matching key,
and nothing else. -/
theorem chunk_store_lifecycle {α : Type} (algoStore : ChunkKey → Option α)
    (out_vars res_vars00 : List String)
    (cstores : ChunkKey → ChunkKey → Option α) (nS nT : Nat)
    (iterative final_iteration : Bool) (frag : ChunkKey → α)
    (hsing : ∀ c, c.1 < nS → c.2 < nT →
      ∀ k, cstores c k = if k = c then some (frag c) else none)
    (hpresent : ∃ v ∈ out_vars, v ∈ res_vars00)
    (chunk_store : ChunkKey → Option α) (key : ChunkKey)
    (hkey : (chunk_store key).isSome) :
    ((iterative = false ∨ final_iteration = true →
      ∀ k, combineResultsStore algoStore out_vars res_vars00 cstores nS nT
        iterative final_iteration k = none) ∧
     (iterative = true → final_iteration = false →
      ∀ k, k.1 < nS → k.2 < nT →
        combineResultsStore algoStore out_vars res_vars00 cstores nS nT
          iterative final_iteration k = some (frag k))) ∧
    (iterative = true →
      (get_chunk_input_data_store iterative chunk_store key).1 key
          = chunk_store key ∧
        ∀ k, k ≠ key → (get_chunk_input_data_store iterative chunk_store key).1 k
          = none) := by
  constructor
  · constructor
    · rintro (hit | hfin) k
      · subst hit
        unfold combineResultsStore
        simp [emptyStore]
      · subst hfin
        unfold combineResultsStore
        simp [emptyStore]
    · intro hit hfin k hk1 hk2
      subst hit
      subst hfin
      unfold combineResultsStore
      simp only [not_true, false_or, if_false, Bool.false_eq_true, or_self]
      obtain ⟨v0, hv0, hv0'⟩ := hpresent
      exact foldl_ifMerge_apply frag _ cstores nS nT hsing out_vars algoStore
        k hk1 hk2 ⟨v0, hv0, hv0', trivial⟩
  · intro hit
    subst hit
    unfold get_chunk_input_data_store
    rw [if_pos ⟨rfl, hkey⟩]
    exact ⟨by simp, fun k hk => by simp [hk]⟩

/-- Witness for `chunk_store_lifecycle` at a concrete configuration:
2 state chunks, 1 target chunk, fragments keyed by the owning chunk;
the reset clause is exercised at a non-iterative combine, the merge and
hand-back clauses at an iterative non-final one. -/
theorem chunk_store_lifecycle_witness :
    letI frag : ChunkKey → Nat := fun k => 10 * k.1 + k.2
    letI cstores : ChunkKey → ChunkKey → Option Nat :=
      fun c k => if k = c then some (10 * c.1 + c.2) else none
    letI cs : ChunkKey → Option Nat := fun k => if k = (1, 0) then some 7 else none
    (∀ k, combineResultsStore emptyStore ["WS"] ["WS"] cstores 2 1 false false k
      = none) ∧
    (∀ k, k.1 < 2 → k.2 < 1 →
      combineResultsStore emptyStore ["WS"] ["WS"] cstores 2 1 true false k
        = some (frag k)) ∧
    ((get_chunk_input_data_store true cs (1, 0)).1 (1, 0) = cs (1, 0) ∧
      ∀ k, k ≠ (1, 0) → (get_chunk_input_data_store true cs (1, 0)).1 k = none) :=
  ⟨(chunk_store_lifecycle emptyStore ["WS"] ["WS"]
      (fun c k => if k = c then some (10 * c.1 + c.2) else none) 2 1 false false
      (fun k => 10 * k.1 + k.2) (fun c _ _ k => rfl) ⟨"WS", by simp, by simp⟩
      (fun k => if k = (1, 0) then some 7 else none) (1, 0) rfl).1.1
    (Or.inl rfl),
   (chunk_store_lifecycle emptyStore ["WS"] ["WS"]
      (fun c k => if k = c then some (10 * c.1 + c.2) else none) 2 1 true false
      (fun k => 10 * k.1 + k.2) (fun c _ _ k => rfl) ⟨"WS", by simp, by simp⟩
      (fun k => if k = (1, 0) then some 7 else none) (1, 0) rfl).1.2 rfl rfl,
   (chunk_store_lifecycle emptyStore ["WS"] ["WS"]
      (fun c k => if k = c then some (10 * c.1 + c.2) else none) 2 1 true false
      (fun k => 10 * k.1 + k.2) (fun c _ _ k => rfl) ⟨"WS", by simp, by simp⟩
      (fun k => if k = (1, 0) then some 7 else none) (1, 0) rfl).2 rfl⟩

/-! ## Run-time factories

`Engine.new` (foxes/core/engine.py lines 451-482) and `WakeModel.new`
(foxes/core/wake_model.py lines 171-204) look the requested type name up
among `all_subclasses(cls)` (represented by the list of subclass names;
an instance is represented by the name of the class that was
instantiated).  The raised `KeyError` message is
`"... type '{}' is not defined, available types are \n {}".format(t, sorted(names))`;
it is embedded structurally as the pair of `format` arguments. -/

structure FactoryError where
  requested : String
  available : List String
deriving DecidableEq, Repr

/-- Python `sorted` on a list of strings: a stable sort by `≤`, embedded
as insertion sort (for the total antisymmetric string order the sorted
permutation is unique, so any correct sort agrees with Python's). -/
def pySorted (names : List String) : List String :=
  List.insertionSort (· ≤ ·) names

/-- The `for scls in allc: if scls.__name__ == t: return scls(...)` loop. -/
def findSubclass (t : String) : List String → Option String
  | [] => none
  | n :: rest => if n == t then some n else findSubclass t rest

/-- `Engine.new` (foxes/core/engine.py lines 451-482). -/
def Engine_new (engine_type : Option String) (allc : List String) :
    Except FactoryError (Option String) :=
  match engine_type with
  | none => .ok none
  | some t =>
    if t ∈ allc then
      .ok (findSubclass t allc)
    else
      .error ⟨t, pySorted allc⟩

/-- `WakeModel.new` (foxes/core/wake_model.py lines 171-204); identical
control flow, different message prefix. -/
def WakeModel_new (wmodel_type : Option String) (allc : List String) :
    Except FactoryError (Option String) :=
  match wmodel_type with
  | none => .ok none
  | some t =>
    if t ∈ allc then
      .ok (findSubclass t allc)
    else
      .error ⟨t, pySorted allc⟩

lemma findSubclass_mem (t : String) (allc : List String) (h : t ∈ allc) :
    findSubclass t allc = some t := by
  induction allc with
  | nil => simp at h
  | cons n rest ih =>
    unfold findSubclass
    by_cases hn : n = t
    · subst hn; simp
    · rw [if_neg (by simpa using hn)]
      rcases List.mem_cons.mp h with rfl | hmem
      · exact absurd rfl hn
      · exact ih hmem

/-- C8: for a type name not among the registered subclasses, both
factories raise an error carrying the requested name and the sorted list
of all available names (a sorted permutation of the registry); for a
registered name they return an instance of exactly that subclass. -/
theorem factory_new_spec (t u : String) (allc : List String) :
    (t ∉ allc →
      Engine_new (some t) allc = .error ⟨t, pySorted allc⟩ ∧
      WakeModel_new (some t) allc = .error ⟨t, pySorted allc⟩) ∧
    (u ∈ allc →
      Engine_new (some u) allc = .ok (some u) ∧
      WakeModel_new (some u) allc = .ok (some u)) ∧
    (pySorted allc).Perm allc ∧ List.Sorted (· ≤ ·) (pySorted allc) := by
  refine ⟨?_, ?_, List.perm_insertionSort _ _, List.sorted_insertionSort _ _⟩
  · intro h
    constructor <;> simp [Engine_new, WakeModel_new, h]
  · intro h
    constructor <;> simp [Engine_new, WakeModel_new, h, findSubclass_mem u allc h]

/-- Witness for `factory_new_spec`: an unknown and a known engine type
against the registry `["MultiprocessEngine", "DaskEngine"]`. -/
theorem factory_new_spec_witness :
    (Engine_new (some "FoxEngine") ["MultiprocessEngine", "DaskEngine"]
        = .error ⟨"FoxEngine", pySorted ["MultiprocessEngine", "DaskEngine"]⟩ ∧
      WakeModel_new (some "FoxEngine") ["MultiprocessEngine", "DaskEngine"]
        = .error ⟨"FoxEngine", pySorted ["MultiprocessEngine", "DaskEngine"]⟩) ∧
    (Engine_new (some "DaskEngine") ["MultiprocessEngine", "DaskEngine"]
        = .ok (some "DaskEngine") ∧
      WakeModel_new (some "DaskEngine") ["MultiprocessEngine", "DaskEngine"]
        = .ok (some "DaskEngine")) ∧
    (pySorted ["MultiprocessEngine", "DaskEngine"]).Perm
      ["MultiprocessEngine", "DaskEngine"] :=
  ⟨(factory_new_spec "FoxEngine" "DaskEngine"
      ["MultiprocessEngine", "DaskEngine"]).1 (by decide),
    (factory_new_spec "FoxEngine" "DaskEngine"
      ["MultiprocessEngine", "DaskEngine"]).2.1 (by decide),
    (factory_new_spec "FoxEngine" "DaskEngine"
      ["MultiprocessEngine", "DaskEngine"]).2.2.1⟩

/-! ## The wake-accumulation pass

`FarmWakesCalculation.calculate`
(foxes/algorithms/iterative/models/farm_wakes_calc.py lines 124-139)
runs, for one wake model, a loop over the downwind slots
`oi in range(n_turbines)`; at each visit it issues up to two
`pwake.contribute(algo, mdata, fdata, tdata, oi, wdelta, wmodel)` calls
(the 5th argument `oi` is the `downwind_index` of the wake-causing
turbine, per the `WakeModel.contribute_at_rotors` contract in
foxes/core/wake_model.py), where `tdata`/`wdelta` are sliced to the
target slots `[:, :oi]` respectively `[:, oi+1:]`, and then one
`_evaluate(..., oi, ...)` call.  The pass is embedded as its sequence of
calls. -/

structure ContributeCall where
  source : Nat
  targets : List Nat
deriving DecidableEq, Repr

inductive WakeCalcEvent where
  | contribute (c : ContributeCall) : WakeCalcEvent
  | evaluate (oi : Nat) : WakeCalcEvent
deriving DecidableEq, Repr

/-- The calls issued while visiting downwind slot `oi`
(farm_wakes_calc.py lines 124-139): slice `[:, :oi]` covers target slots
`0..oi-1`, slice `[:, oi+1:]` covers target slots `oi+1..n_turbines-1`. -/
def visitEvents (n_turbines oi : Nat) : List WakeCalcEvent :=
  (if oi > 0 then [.contribute ⟨oi, List.range oi⟩] else []) ++
  (if oi < n_turbines - 1 then
    [.contribute ⟨oi, List.range' (oi + 1) (n_turbines - 1 - oi)⟩] else []) ++
  [.evaluate oi]

/-- The full per-wake-model pass: visits in ascending downwind-slot order. -/
def wakeCalcEvents (n_turbines : Nat) : List WakeCalcEvent :=
  (List.range n_turbines).flatMap (visitEvents n_turbines)

/-- The events of all visits strictly before slot `oi`. -/
def eventsUpTo (n_turbines oi : Nat) : List WakeCalcEvent :=
  (List.range oi).flatMap (visitEvents n_turbines)

/-- C3 counterexample: in a 2-turbine pass, the contribution step
executed when visiting `oi = 1` is a single `contribute` call whose
`downwind_index` (wake source) is 1 and whose target slots are `[0]`:
no call issued at that visit has slot 1 among its targets, and no call
issued at that visit has a source smaller than 1, contradicting the
claim that visiting `oi` accumulates the upstream turbines' wakes into
the deltas at slot `oi`. -/
theorem visit_contribution_counterexample :
    visitEvents 2 1 = [.contribute ⟨1, [0]⟩, .evaluate 1] ∧
      (∀ c, WakeCalcEvent.contribute c ∈ visitEvents 2 1 →
        1 ∉ c.targets ∧ ¬ c.source < 1) := by
  have h : visitEvents 2 1 = [.contribute ⟨1, [0]⟩, .evaluate 1] := by decide
  refine ⟨h, ?_⟩
  intro c hc
  rw [h] at hc
  rcases List.mem_cons.mp hc with h1 | h1
  · cases h1; decide
  · rcases List.mem_cons.mp h1 with h2 | h2
    · simp at h2
    · simp at h2

/-- C3 (amended): at every visit of a slot `oi > 0` the contribution
step is a `contribute` call whose wake source is `oi` itself and whose
target slots are exactly the slots strictly below `oi`; the direction of
the claim is reversed.  The upstream turbines' wakes do reach slot `oi`,
but through the downstream `contribute` calls issued at the earlier
visits: for every `j < oi`, the visit of `j` (which precedes the visit
of `oi` in the pass) issues a call with source `j` whose targets include
`oi`. -/
theorem contribute_at_visit (N oi : Nat) (h0 : 0 < oi) (hN : oi < N) :
    (visitEvents N oi).head? = some (.contribute ⟨oi, List.range oi⟩) ∧
    (∀ j, j ∈ List.range oi ↔ j < oi) ∧
    (∀ j, j < oi →
      WakeCalcEvent.contribute ⟨j, List.range' (j + 1) (N - 1 - j)⟩
        ∈ eventsUpTo N oi ∧
      oi ∈ List.range' (j + 1) (N - 1 - j)) ∧
    wakeCalcEvents N
      = eventsUpTo N oi ++ visitEvents N oi
        ++ (List.range' (oi + 1) (N - 1 - oi)).flatMap (visitEvents N) := by
  refine ⟨?_, fun j => List.mem_range, ?_, ?_⟩
  · unfold visitEvents
    rw [if_pos h0]
    rfl
  · intro j hj
    constructor
    · rw [eventsUpTo, List.mem_flatMap]
      refine ⟨j, List.mem_range.mpr hj, ?_⟩
      unfold visitEvents
      have hj1 : j < N - 1 := by omega
      rw [if_pos hj1]
      simp
    · rw [List.mem_range'_1]
      omega
  · have hsplit : List.range' 0 oi ++ List.range' oi (1 + (N - 1 - oi))
        = List.range' 0 N := by
      have h := List.range'_append_1 0 oi (1 + (N - 1 - oi))
      rw [Nat.zero_add] at h
      rw [h]
      congr 1
      omega
    simp only [wakeCalcEvents, eventsUpTo, List.range_eq_range']
    rw [← hsplit, show 1 + (N - 1 - oi) = (N - 1 - oi) + 1 by omega,
      List.range'_succ, List.flatMap_append, List.flatMap_cons, List.append_assoc]

/-- Witness for `contribute_at_visit` at `N = 3`, `oi = 1`. -/
theorem contribute_at_visit_witness :
    (visitEvents 3 1).head? = some (.contribute ⟨1, List.range 1⟩) ∧
    (∀ j, j ∈ List.range 1 ↔ j < 1) ∧
    (∀ j, j < 1 →
      WakeCalcEvent.contribute ⟨j, List.range' (j + 1) (3 - 1 - j)⟩
        ∈ eventsUpTo 3 1 ∧
      1 ∈ List.range' (j + 1) (3 - 1 - j)) ∧
    wakeCalcEvents 3
      = eventsUpTo 3 1 ++ visitEvents 3 1
        ++ (List.range' (1 + 1) (3 - 1 - 1)).flatMap (visitEvents 3) :=
  contribute_at_visit 3 1 (by norm_num) (by norm_num)

lemma countP_flatMap {α β : Type} (l : List α) (f : α → List β) (p : β → Bool) :
    (l.flatMap f).countP p = (l.map (fun a => (f a).countP p)).sum := by
  induction l with
  | nil => rfl
  | cons a rest ih =>
    rw [List.flatMap_cons, List.countP_append, List.map_cons, List.sum_cons, ih]

/-- The predicate "a `contribute` call with wake source `i` whose target
slots include `j`". -/
def isContribPair (i j : Nat) : WakeCalcEvent → Bool
  | .contribute c => decide (c.source = i) && decide (j ∈ c.targets)
  | .evaluate _ => false

lemma countP_visitEvents (N oi i j : Nat) (hiN : i < N) (hjN : j < N)
    (hij : i ≠ j) :
    (visitEvents N oi).countP (isContribPair i j) = if oi = i then 1 else 0 := by
  unfold visitEvents
  rw [List.countP_append, List.countP_append]
  have heval : List.countP (isContribPair i j) [WakeCalcEvent.evaluate oi] = 0 := by
    simp [List.countP_cons, isContribPair]
  rw [heval]
  by_cases hoi : oi = i
  · subst hoi
    rcases Nat.lt_or_ge j oi with hj | hj
    · have h0 : 0 < oi := by omega
      rw [if_pos h0]
      have h2 : ¬ (j ∈ List.range' (oi + 1) (N - 1 - oi)) := by
        rw [List.mem_range'_1]; omega
      have hc1 : List.countP (isContribPair oi j)
          [WakeCalcEvent.contribute ⟨oi, List.range oi⟩] = 1 := by
        simp [List.countP_cons, isContribPair, List.mem_range, hj]
      rw [hc1]
      by_cases hlt : oi < N - 1
      · rw [if_pos hlt]
        have hc2 : List.countP (isContribPair oi j)
            [WakeCalcEvent.contribute ⟨oi, List.range' (oi + 1) (N - 1 - oi)⟩]
            = 0 := by
          simp [List.countP_cons, isContribPair, h2]
        rw [hc2]
        simp
      · rw [if_neg hlt]
        simp
    · have hj' : oi < j := by omega
      have hlt : oi < N - 1 := by omega
      rw [if_pos hlt]
      have h2 : j ∈ List.range' (oi + 1) (N - 1 - oi) := by
        rw [List.mem_range'_1]; omega
      have hc2 : List.countP (isContribPair oi j)
          [WakeCalcEvent.contribute ⟨oi, List.range' (oi + 1) (N - 1 - oi)⟩]
          = 1 := by
        simp [List.countP_cons, isContribPair, h2]
      rw [hc2]
      by_cases h0 : 0 < oi
      · rw [if_pos h0]
        have hc1 : List.countP (isContribPair oi j)
            [WakeCalcEvent.contribute ⟨oi, List.range oi⟩] = 0 := by
          simp [List.countP_cons, isContribPair, List.mem_range]
          omega
        rw [hc1]
        simp
      · rw [if_neg h0]
        simp
  · rw [if_neg hoi]
    have hc1 : ∀ L : List Nat, List.countP (isContribPair i j)
        [WakeCalcEvent.contribute ⟨oi, L⟩] = 0 := by
      intro L
      simp [List.countP_cons, isContribPair]
      intro h
      omega
    by_cases h0 : 0 < oi <;> by_cases hlt : oi < N - 1 <;>
      simp [h0, hlt, hc1]

lemma sum_map_zero {α : Type} (l : List α) (f : α → Nat)
    (h : ∀ a ∈ l, f a = 0) : (l.map f).sum = 0 := by
  induction l with
  | nil => rfl
  | cons a rest ih =>
    rw [List.map_cons, List.sum_cons, h a (List.mem_cons_self _ _),
      ih (fun b hb => h b (List.mem_cons_of_mem _ hb))]

/-- C4: within one wake-model pass over `N` turbines, every ordered pair
of distinct downwind slots `(i, j)` is covered by exactly one
`contribute` call with wake source `i` and target slot `j`; no call has
its source among its own targets; and a pass over a single turbine
issues no `contribute` call at all, only the evaluation of slot 0. -/
theorem contribute_once_per_pair (N i j : Nat) (hiN : i < N) (hjN : j < N)
    (hij : i ≠ j) :
    (wakeCalcEvents N).countP (isContribPair i j) = 1 ∧
    (∀ c, WakeCalcEvent.contribute c ∈ wakeCalcEvents N →
      c.source ∉ c.targets) ∧
    wakeCalcEvents 1 = [.evaluate 0] := by
  refine ⟨?_, ?_, by decide⟩
  · rw [wakeCalcEvents, countP_flatMap]
    have hsplit : List.range N = List.range i ++ i :: List.range' (i + 1) (N - 1 - i) := by
      have h := List.range'_append_1 0 i (1 + (N - 1 - i))
      rw [Nat.zero_add] at h
      simp only [List.range_eq_range']
      rw [← show List.range' 0 (1 + (N - 1 - i) + i) = List.range' 0 N by congr 1; omega,
        ← h, show 1 + (N - 1 - i) = (N - 1 - i) + 1 by omega, List.range'_succ]
    rw [hsplit, List.map_append, List.sum_append, List.map_cons, List.sum_cons]
    have hz1 : ((List.range i).map
        (fun a => (visitEvents N a).countP (isContribPair i j))).sum = 0 := by
      apply sum_map_zero
      intro a ha
      rw [countP_visitEvents N a i j hiN hjN hij,
        if_neg (by rw [List.mem_range] at ha; omega)]
    have hz2 : ((List.range' (i + 1) (N - 1 - i)).map
        (fun a => (visitEvents N a).countP (isContribPair i j))).sum = 0 := by
      apply sum_map_zero
      intro a ha
      rw [countP_visitEvents N a i j hiN hjN hij,
        if_neg (by rw [List.mem_range'_1] at ha; omega)]
    rw [hz1, hz2, countP_visitEvents N i i j hiN hjN hij, if_pos rfl]
    omega
  · intro c hc
    rw [wakeCalcEvents, List.mem_flatMap] at hc
    obtain ⟨oi, _, hmem⟩ := hc
    unfold visitEvents at hmem
    rcases List.mem_append.mp hmem with h1 | h1
    · rcases List.mem_append.mp h1 with h2 | h2
      · by_cases h0 : 0 < oi
        · rw [if_pos h0] at h2
          rcases List.mem_cons.mp h2 with h3 | h3
          · cases h3
            simp [List.mem_range]
          · simp at h3
        · rw [if_neg h0] at h2
          simp at h2
      · by_cases hlt : oi < N - 1
        · rw [if_pos hlt] at h2
          rcases List.mem_cons.mp h2 with h3 | h3
          · cases h3
            simp [List.mem_range'_1]
          · simp at h3
        · rw [if_neg hlt] at h2
          simp at h2
    · rcases List.mem_cons.mp h1 with h2 | h2
      · simp at h2
      · simp at h2

/-- Witness for `contribute_once_per_pair` at `N = 3`, pair `(0, 2)`. -/
theorem contribute_once_per_pair_witness :
    (wakeCalcEvents 3).countP (isContribPair 0 2) = 1 ∧
    (∀ c, WakeCalcEvent.contribute c ∈ wakeCalcEvents 3 →
      c.source ∉ c.targets) ∧
    wakeCalcEvents 1 = [.evaluate 0] :=
  contribute_once_per_pair 3 0 2 (by norm_num) (by norm_num) (by norm_num)

/-! ## Top-hat wake models

`TopHatWakeModel.calc_wakes_x_r` (foxes/models/wake_models/top_hat.py
lines 157-228).  Physical quantities are embedded as rationals, indexed
by state `s`, target `t` and radial sample `k` (the `n_yz_per_target`
axis has extent `nY`).  The results of the abstract methods
`calc_wake_radius` (`wake_r`, a function of `x` and `ct` only) and
`calc_centreline_wake_deltas` (`clDel`) are parameters. -/

/-- The state-target selection
`st_sel = (ct > 0) & (x > 0) & np.any(r < wake_r[:, :, None], axis=2)`
(top_hat.py line 213). -/
def st_sel (nY : Nat) (ct x : Nat → Nat → ℚ) (r : Nat → Nat → Nat → ℚ)
    (wake_r : Nat → Nat → ℚ) (s t : Nat) : Bool :=
  decide (0 < ct s t) && decide (0 < x s t) &&
    decide (∃ k < nY, r s t k < wake_r s t)

/-- The wake-delta value of `calc_wakes_x_r` at `(s, t, k)`: on selected
state-target pairs the returned rows are
`np.where(isin, wdel[:, None], 0.)` with `isin = r < wake_r[:, None]`
(top_hat.py lines 224-226); pairs outside the selection have no row in
`wdeltas` and receive no contribution, i.e. their delta is zero. -/
def calc_wakes_x_r_delta (nY : Nat) (ct x : Nat → Nat → ℚ)
    (r : Nat → Nat → Nat → ℚ) (wake_r clDel : Nat → Nat → ℚ)
    (s t k : Nat) : ℚ :=
  if st_sel nY ct x r wake_r s t then
    (if r s t k < wake_r s t then clDel s t else 0)
  else 0

/-- C9: a state-target pair is selected only if the source turbine's ct
and the downwind coordinate x are strictly positive and some radial
sample lies inside the wake radius; the delta is exactly zero at every
point outside the wake radius; a zero-thrust source contributes zero
everywhere; and targets at non-positive downwind distance (including the
source's own rotor at `x = 0`) receive exactly zero. -/
theorem top_hat_no_selfwake (nY : Nat) (ct x : Nat → Nat → ℚ)
    (r : Nat → Nat → Nat → ℚ) (wake_r clDel : Nat → Nat → ℚ) (s t k : Nat) :
    (st_sel nY ct x r wake_r s t = true →
      0 < ct s t ∧ 0 < x s t ∧ ∃ kk < nY, r s t kk < wake_r s t) ∧
    (wake_r s t ≤ r s t k →
      calc_wakes_x_r_delta nY ct x r wake_r clDel s t k = 0) ∧
    (ct s t ≤ 0 →
      st_sel nY ct x r wake_r s t = false ∧
      calc_wakes_x_r_delta nY ct x r wake_r clDel s t k = 0) ∧
    (x s t ≤ 0 →
      st_sel nY ct x r wake_r s t = false ∧
      calc_wakes_x_r_delta nY ct x r wake_r clDel s t k = 0) := by
  refine ⟨?_, ?_, ?_, ?_⟩
  · intro h
    have h' := h
    simp only [st_sel, Bool.and_eq_true, decide_eq_true_eq] at h'
    exact ⟨h'.1.1, h'.1.2, h'.2⟩
  · intro h
    unfold calc_wakes_x_r_delta
    by_cases hsel : st_sel nY ct x r wake_r s t
    · rw [if_pos hsel, if_neg (by exact not_lt.mpr h)]
    · rw [if_neg hsel]
  · intro h
    have hsel : st_sel nY ct x r wake_r s t = false := by
      simp [st_sel, decide_eq_true_eq]
      intro hct
      exact absurd hct (not_lt.mpr h)
    exact ⟨hsel, by unfold calc_wakes_x_r_delta; rw [hsel]; simp⟩
  · intro h
    have hsel : st_sel nY ct x r wake_r s t = false := by
      simp [st_sel, decide_eq_true_eq]
      intro _ hx
      exact absurd hx (not_lt.mpr h)
    exact ⟨hsel, by unfold calc_wakes_x_r_delta; rw [hsel]; simp⟩

/-- Witness for `top_hat_no_selfwake`: a zero-thrust source at `x = 0`
(its own rotor position), one radial sample inside the wake radius. -/
theorem top_hat_no_selfwake_witness :
    letI ct : Nat → Nat → ℚ := fun _ _ => 0
    letI x : Nat → Nat → ℚ := fun _ _ => 0
    letI r : Nat → Nat → Nat → ℚ := fun _ _ _ => 1
    letI wake_r : Nat → Nat → ℚ := fun _ _ => 2
    letI clDel : Nat → Nat → ℚ := fun _ _ => 5
    (st_sel 1 ct x r wake_r 0 0 = false ∧
      calc_wakes_x_r_delta 1 ct x r wake_r clDel 0 0 0 = 0) ∧
    (st_sel 1 ct x r wake_r 0 0 = false ∧
      calc_wakes_x_r_delta 1 ct x r wake_r clDel 0 0 0 = 0) :=
  ⟨(top_hat_no_selfwake 1 (fun _ _ => 0) (fun _ _ => 0) (fun _ _ _ => 1)
      (fun _ _ => 2) (fun _ _ => 5) 0 0 0).2.2.1 (by norm_num),
    (top_hat_no_selfwake 1 (fun _ _ => 0) (fun _ _ => 0) (fun _ _ _ => 1)
      (fun _ _ => 2) (fun _ _ => 5) 0 0 0).2.2.2 (by norm_num)⟩

/-! ## Splitting into chunks and recombining

The engine slices the state axis into consecutive chunks of the sizes
computed by `calc_chunk_sizes` (`i0:i1` slices in
`LocalClusterEngine.run_calculation`, dask.py lines 580-588, and in
`Engine.get_chunk_input_data`), and independently the target axis.
`Engine.combine_results` (engine.py lines 360-383; the same loop in
dask.py lines 684-702) recombines the per-chunk result arrays by
`np.concatenate(tres, axis=1)` over point chunks in ascending
point-chunk order inside each state chunk (skipped when only one point
chunk exists) followed by `np.concatenate(..., axis=0)` over state
chunks in ascending state-chunk order.

An array over (state, target) is embedded as a list of rows; a chunk
grid cell is obtained by `take`/`drop` slicing of rows and columns. -/

/-- Slice a list into consecutive chunks of the given sizes. -/
def splitBy {α : Type} : List Nat → List α → List (List α)
  | [], _ => []
  | n :: ns, l => l.take n :: splitBy ns (l.drop n)

/-- Slice the columns of a row-major array into consecutive column
chunks of the given sizes. -/
def colSplit {α : Type} : List Nat → List (List α) → List (List (List α))
  | [], _ => []
  | n :: ns, rows => rows.map (List.take n) :: colSplit ns (rows.map (List.drop n))

/-- `np.concatenate(tres, axis=1)`: row-wise concatenation of arrays. -/
def concat_axis1 {β : Type} : List (List (List β)) → List (List β)
  | [] => []
  | [c] => c
  | c :: cs => List.zipWith (· ++ ·) c (concat_axis1 cs)

/-- The input data of grid chunk `(i, j)`: state-chunk `i` of the rows,
target-chunk `j` of the columns. -/
def chunkData {α : Type} (ss ts : List Nat) (full : List (List α)) (i j : Nat) :
    List (List α) :=
  (colSplit ts ((splitBy ss full).getD i [])).getD j []

/-- The value-combination step of `Engine.combine_results` for one
output variable: per-chunk result arrays are concatenated along the
point axis in ascending point-chunk order (skipped when
`n_chunks_targets == 1`) and then along the state axis in ascending
state-chunk order. -/
def combineResults {β : Type} (n_chunks_states n_chunks_targets : Nat)
    (results : Nat → Nat → List (List β)) : List (List β) :=
  ((List.range n_chunks_states).map (fun chunki_states =>
    if n_chunks_targets = 1 then results chunki_states 0
    else concat_axis1 ((List.range n_chunks_targets).map
      (fun chunki_points => results chunki_states chunki_points)))).flatten

lemma length_splitBy {α : Type} (ss : List Nat) (l : List α) :
    (splitBy ss l).length = ss.length := by
  induction ss generalizing l with
  | nil => rfl
  | cons n ns ih => simp [splitBy, ih]

lemma length_colSplit {α : Type} (ts : List Nat) (rows : List (List α)) :
    (colSplit ts rows).length = ts.length := by
  induction ts generalizing rows with
  | nil => rfl
  | cons n ns ih => simp [colSplit, ih]

lemma flatten_splitBy {α : Type} (ss : List Nat) (l : List α)
    (h : ss.sum = l.length) : (splitBy ss l).flatten = l := by
  induction ss generalizing l with
  | nil =>
    simp at h
    simp [splitBy, List.eq_nil_of_length_eq_zero h.symm]
  | cons n ns ih =>
    simp only [splitBy, List.flatten_cons]
    rw [ih (l.drop n) (by simp at h ⊢; omega)]
    exact List.take_append_drop n l

lemma mem_splitBy_mem {α : Type} (ss : List Nat) (l : List α) (c : List α)
    (hc : c ∈ splitBy ss l) (a : α) (ha : a ∈ c) : a ∈ l := by
  induction ss generalizing l with
  | nil => simp [splitBy] at hc
  | cons n ns ih =>
    rcases List.mem_cons.mp hc with rfl | hmem
    · exact List.mem_of_mem_take ha
    · exact List.mem_of_mem_drop (ih (l.drop n) hmem)

lemma colSplit_map {α β : Type} (g : α → β) (ts : List Nat)
    (rows : List (List α)) :
    colSplit ts (rows.map (List.map g))
      = (colSplit ts rows).map (List.map (List.map g)) := by
  induction ts generalizing rows with
  | nil => rfl
  | cons n ns ih =>
    simp only [colSplit, List.map_cons]
    have hhead : (rows.map (List.map g)).map (List.take n)
        = (rows.map (List.take n)).map (List.map g) := by
      rw [List.map_map, List.map_map]
      apply List.map_congr_left
      intro r _
      simp [Function.comp, List.map_take]
    have htail : (rows.map (List.map g)).map (List.drop n)
        = (rows.map (List.drop n)).map (List.map g) := by
      rw [List.map_map, List.map_map]
      apply List.map_congr_left
      intro r _
      simp [Function.comp, List.map_drop]
    rw [hhead, htail, ih]

lemma concat_axis1_colSplit {α : Type} (ts : List Nat) (rows : List (List α))
    (hne : ts ≠ []) (hlen : ∀ r ∈ rows, ts.sum = r.length) :
    concat_axis1 (colSplit ts rows) = rows := by
  induction ts generalizing rows with
  | nil => exact absurd rfl hne
  | cons t ts ih =>
    cases ts with
    | nil =>
      show concat_axis1 [rows.map (List.take t)] = rows
      show rows.map (List.take t) = rows
      conv_rhs => rw [← List.map_id rows]
      apply List.map_congr_left
      intro r hr
      have := hlen r hr
      simp only [List.sum_cons, List.sum_nil, Nat.add_zero] at this
      exact List.take_of_length_le (by omega)
    | cons t2 ts2 =>
      rw [show colSplit (t :: t2 :: ts2) rows
          = rows.map (List.take t) :: colSplit (t2 :: ts2) (rows.map (List.drop t))
          from rfl]
      rw [show concat_axis1 (rows.map (List.take t)
            :: colSplit (t2 :: ts2) (rows.map (List.drop t)))
          = List.zipWith (· ++ ·) (rows.map (List.take t))
            (concat_axis1 (colSplit (t2 :: ts2) (rows.map (List.drop t))))
          from rfl]
      have hlen' : ∀ r' ∈ rows.map (List.drop t), (t2 :: ts2).sum = r'.length := by
        intro r' hr'
        obtain ⟨r, hr, rfl⟩ := List.mem_map.mp hr'
        have := hlen r hr
        simp only [List.sum_cons, List.length_drop] at this ⊢
        omega
      rw [ih (rows.map (List.drop t)) (List.cons_ne_nil _ _) hlen',
        List.zipWith_map, List.zipWith_same]
      conv_rhs => rw [← List.map_id rows]
      apply List.map_congr_left
      intro r _
      exact List.take_append_drop t r

lemma map_range_getD {γ : Type} (L : List γ) (d : γ) :
    (List.range L.length).map (fun j => L.getD j d) = L := by
  induction L with
  | nil => rfl
  | cons a as ih =>
    rw [List.length_cons, List.range_succ_eq_map, List.map_cons, List.map_map,
      List.getD_cons_zero]
    have htail : List.map ((fun j => (a :: as).getD j d) ∘ Nat.succ)
        (List.range as.length) = as :=
      (List.map_congr_left (fun j _ => List.getD_cons_succ)).trans ih
    rw [htail]

/-- C1: recombining the per-chunk results of the elementwise per-cell
calculation `g` over any chunking of the state axis (sizes `ss` summing
to the number of states) and of the target axis (sizes `ts`, at least
one chunk, summing to each row's length) by the
`Engine.combine_results` concatenation order reproduces exactly the
unchunked calculation over the full array. -/
theorem combine_results_refines_unchunked {α β : Type} (g : α → β)
    (ss ts : List Nat) (full : List (List α))
    (hss : ss.sum = full.length) (hts : 0 < ts.length)
    (hrow : ∀ r ∈ full, ts.sum = r.length) :
    combineResults ss.length ts.length
      (fun i j => (chunkData ss ts full i j).map (List.map g))
      = full.map (List.map g) := by
  unfold combineResults chunkData
  -- the per-state-chunk branch equals the general point-chunk concatenation
  have hbranch : ∀ i : Nat,
      (if ts.length = 1 then
        ((colSplit ts ((splitBy ss full).getD i [])).getD 0 []).map (List.map g)
      else concat_axis1 ((List.range ts.length).map (fun j =>
        ((colSplit ts ((splitBy ss full).getD i [])).getD j []).map (List.map g))))
      = concat_axis1 ((List.range ts.length).map (fun j =>
        ((colSplit ts ((splitBy ss full).getD i [])).getD j []).map (List.map g))) := by
    intro i
    by_cases h1 : ts.length = 1
    · rw [if_pos h1, h1]
      rfl
    · rw [if_neg h1]
  simp only [hbranch]
  -- rewrite each state chunk's point-chunk list as a map over colSplit
  have hcols : ∀ sc : List (List α),
      (List.range ts.length).map (fun j =>
        ((colSplit ts sc).getD j []).map (List.map g))
      = colSplit ts (sc.map (List.map g)) := by
    intro sc
    have h2 : (List.range ts.length).map (fun j => (colSplit ts sc).getD j [])
        = colSplit ts sc := by
      rw [← length_colSplit ts sc]
      exact map_range_getD _ _
    calc (List.range ts.length).map (fun j =>
          ((colSplit ts sc).getD j []).map (List.map g))
        = ((List.range ts.length).map (fun j =>
            (colSplit ts sc).getD j [])).map (List.map (List.map g)) :=
          (List.map_map _ _ _).symm
      _ = (colSplit ts sc).map (List.map (List.map g)) := by rw [h2]
      _ = colSplit ts (sc.map (List.map g)) := (colSplit_map g ts sc).symm
  simp only [hcols]
  -- collapse the state-chunk map over `range` into a map over `splitBy`
  have hstates : (List.range ss.length).map (fun i =>
      concat_axis1 (colSplit ts (((splitBy ss full).getD i []).map (List.map g))))
      = (splitBy ss full).map (fun sc =>
        concat_axis1 (colSplit ts (sc.map (List.map g)))) := by
    rw [← length_splitBy ss full]
    have e1 : (List.range (splitBy ss full).length).map (fun i =>
        concat_axis1 (colSplit ts (((splitBy ss full).getD i []).map (List.map g))))
        = ((List.range (splitBy ss full).length).map
            (fun i => (splitBy ss full).getD i [])).map
          (fun sc => concat_axis1 (colSplit ts (sc.map (List.map g)))) :=
      (List.map_map (fun (sc : List (List α)) =>
          concat_axis1 (colSplit ts (sc.map (List.map g))))
        (fun i => (splitBy ss full).getD i []) _).symm
    rw [e1, map_range_getD]
  rw [hstates]
  -- per state chunk, recombination of the point chunks is the identity
  have hsc : ∀ sc ∈ splitBy ss full,
      concat_axis1 (colSplit ts (sc.map (List.map g))) = sc.map (List.map g) := by
    intro sc hsc
    apply concat_axis1_colSplit ts _ (by intro h; rw [h] at hts; simp at hts)
    intro r' hr'
    obtain ⟨r, hr, rfl⟩ := List.mem_map.mp hr'
    rw [List.length_map]
    exact hrow r (mem_splitBy_mem ss full sc hsc r hr)
  rw [List.map_congr_left hsc, ← List.map_flatten, flatten_splitBy ss full hss]

/-- Witness for `combine_results_refines_unchunked`: a 3-states ×
3-targets array split into 2 state chunks and 2 point chunks. -/
theorem combine_results_refines_unchunked_witness :
    combineResults 2 2
      (fun i j => (chunkData [2, 1] [2, 1]
        [[1, 2, 3], [4, 5, 6], [7, 8, 9]] i j).map (List.map (fun v => 10 * v)))
      = [[1, 2, 3], [4, 5, 6], [7, 8, 9]].map (List.map (fun v : Nat => 10 * v)) :=
  combine_results_refines_unchunked (fun v : Nat => 10 * v) [2, 1] [2, 1]
    [[1, 2, 3], [4, 5, 6], [7, 8, 9]] (by decide) (by decide)
    (by intro r hr; fin_cases hr <;> decide)

end Foxes
